import Mathlib

/-!
Verification development for the QKD subsystem of the repository
(src/rust/src/crypto/qkd.rs, with the session table of
src/rust/src/db/redb_client.rs and the record type of src/rust/src/db/models.rs).

The Rust code is shallowly embedded: bytes are naturals kept below 256,
byte vectors are lists of naturals, and every random draw of the source
(rand::thread_rng) is threaded in explicitly as a stream of draws indexed
by draw position.  External crates that the source consumes as black boxes
(the sha2/blake3 digests behind MultiHasher, the chacha20poly1305 AEAD,
the uuid generator, the redb store together with serde_json) are modelled
from the interface the spec gives them; each such definition carries a
doc comment saying so.  Everything else is translated from the source.
-/

/-- Rust enum QuantumBasis of qkd.rs: the two measurement bases. -/
inductive QuantumBasis where
  | Rectilinear
  | Diagonal
deriving DecidableEq, Repr

/-- Rust struct QuantumBit of qkd.rs: a basis together with a bit value. -/
structure QuantumBit where
  basis : QuantumBasis
  value : Bool
deriving DecidableEq, Repr

/-- The comparison std mem discriminant a == std mem discriminant b used by the
source on QuantumBasis, which for this fieldless enum is plain tag equality. -/
def basisMatch : QuantumBasis → QuantumBasis → Bool
  | QuantumBasis.Rectilinear, QuantumBasis.Rectilinear => true
  | QuantumBasis.Diagonal, QuantumBasis.Diagonal => true
  | _, _ => false

/-- The basis choice the source makes from one boolean draw of gen_bool. -/
def boolToBasis (b : Bool) : QuantumBasis :=
  if b then QuantumBasis.Rectilinear else QuantumBasis.Diagonal

/-- Rust struct BB84Simulator of qkd.rs. -/
structure BB84Simulator where
  bits_count : Nat
deriving Repr

/-- BB84Simulator::new. -/
def BB84Simulator.new (bits_count : Nat) : BB84Simulator :=
  { bits_count := bits_count }

/-- BB84Simulator::alice_prepare: for each of bits_count rounds one basis draw
and one value draw; returns the prepared qubits and the chosen bases. -/
def BB84Simulator.alice_prepare (s : BB84Simulator) (rBasis rValue : Nat → Bool) :
    List QuantumBit × List QuantumBasis :=
  ((List.range s.bits_count).map fun i =>
     { basis := boolToBasis (rBasis i), value := rValue i },
   (List.range s.bits_count).map fun i => boolToBasis (rBasis i))

/-- Loop body of BB84Simulator::bob_measure, one qubit at a time; the index
selects the draws of the boolean streams for this position. -/
def bobMeasureAux (rBasis rNoise : Nat → Bool) :
    List QuantumBit → Nat → List Bool × List QuantumBasis
  | [], _ => ([], [])
  | qubit :: rest, i =>
      let bob_basis := boolToBasis (rBasis i)
      let measured_value :=
        if basisMatch qubit.basis bob_basis then qubit.value else rNoise i
      let tail := bobMeasureAux rBasis rNoise rest (i + 1)
      (measured_value :: tail.1, bob_basis :: tail.2)

/-- BB84Simulator::bob_measure: per qubit a random basis; on basis match the
original value is observed, otherwise a fresh random bit. -/
def BB84Simulator.bob_measure (_s : BB84Simulator) (alice_bits : List QuantumBit)
    (rBasis rNoise : Nat → Bool) : List Bool × List QuantumBasis :=
  bobMeasureAux rBasis rNoise alice_bits 0

/-- BB84Simulator::sift_key: zip the two basis lists with the measured values
and keep a value exactly when the bases agree. -/
def BB84Simulator.sift_key (alice_bases bob_bases : List QuantumBasis)
    (bob_values : List Bool) : List Bool :=
  ((alice_bases.zip bob_bases).zip bob_values).filterMap fun p =>
    if basisMatch p.1.1 p.1.2 then some p.2 else none

/-- Numeric value of one bit, as the source cast bit as u8. -/
def bitVal (b : Bool) : Nat := if b then 1 else 0

/-- Loop of BB84Simulator::finalize_key: state is the current byte under
construction, the number of bits already shifted into it, and the bytes
emitted so far.  The u8 shift wraps, hence the reduction mod 256. -/
def packBitsAux : List Bool → Nat → Nat → List Nat → List Nat
  | [], _, _, acc => acc
  | b :: rest, current_byte, bit_count, acc =>
      let cur2 := ((current_byte <<< 1) % 256) ||| bitVal b
      if bit_count + 1 == 8 then
        packBitsAux rest 0 0 (acc ++ [cur2])
      else
        packBitsAux rest cur2 (bit_count + 1) acc

/-- BB84Simulator::finalize_key: pack at most target_size * 8 sifted bits into
bytes, pad with zero bytes up to target_size, then truncate to target_size. -/
def BB84Simulator.finalize_key (sifted_key : List Bool) (target_size : Nat) :
    List Nat :=
  let key_bytes := packBitsAux (sifted_key.take (target_size * 8)) 0 0 []
  let padded := key_bytes ++ List.replicate (target_size - key_bytes.length) 0
  padded.take target_size

/-- Value of one full group of eight bits, most significant first, with the
same shift-and-or step the source loop performs. -/
def chunkByte (g : List Bool) : Nat :=
  g.foldl (fun acc b => ((acc <<< 1) % 256) ||| bitVal b) 0

/-- Packing that emits one byte per complete group of eight bits and discards
any trailing group of fewer than eight bits. -/
def packChunks : List Bool → List Nat
  | b1 :: b2 :: b3 :: b4 :: b5 :: b6 :: b7 :: b8 :: rest =>
      chunkByte [b1, b2, b3, b4, b5, b6, b7, b8] :: packChunks rest
  | _ => []

/-- Finalization as the spec words it: the bits that fit are packed most
significant first and, when fewer than target_size * 8 bits are available,
the bit string is zero padded on the low end before packing, so that every
real input bit reaches the output. -/
def specFinalizeKey (bits : List Bool) (target_size : Nat) : List Nat :=
  let used := bits.take (target_size * 8)
  packChunks (used ++ List.replicate (target_size * 8 - used.length) false)

/-- Sifting as the spec words it: for each position i at which the sender and
receiver bases are equal, keep the receiver value, in input order. -/
def siftSpec (alice_bases bob_bases : List QuantumBasis)
    (bob_values : List Bool) : List Bool :=
  (List.range bob_values.length).filterMap fun i =>
    match alice_bases[i]?, bob_bases[i]?, bob_values[i]? with
    | some a, some b, some v => if a = b then some v else none
    | _, _, _ => none

/-- Modelled from the spec: the BLAKE3 digest behind MultiHasher::hash
(external blake3 crate, spec section 6 black box) as a fixed deterministic
function from bytes to a 32 byte digest. -/
def blake3Hash (data : List Nat) : List Nat :=
  (List.range 32).map fun i =>
    (data.sum * 151 + data.length * 83 + i * 19 + 41) % 256

/-- Modelled from the spec: the SHA-256 digest behind MultiHasher::hash
(external sha2 crate, spec section 6 black box) as a fixed deterministic
function from bytes to a 32 byte digest. -/
def sha256Hash (data : List Nat) : List Nat :=
  (List.range 32).map fun i =>
    (data.sum * 131 + data.length * 17 + i * 7 + 23) % 256

/-- QKDKeyGenerator::generate_bb84_key: simulate key_size * 16 qubits through
prepare, measure, sift and finalize.  The Rust Result wrapper carries no
failure branch in this function, so the embedding is total. -/
def QKDKeyGenerator.generate_bb84_key (key_size : Nat)
    (raBasis raValue rbBasis rbNoise : Nat → Bool) : List Nat :=
  let simulator := BB84Simulator.new (key_size * 16)
  let ap := simulator.alice_prepare raBasis raValue
  let bm := simulator.bob_measure ap.1 rbBasis rbNoise
  let sifted_key := BB84Simulator.sift_key ap.2 bm.2 bm.1
  BB84Simulator.finalize_key sifted_key key_size

/-- QKDKeyGenerator::generate_hybrid_key: xor the simulated key with key_size
fresh random bytes, digest the result with BLAKE3 and return the first
min key_size 32 bytes of the digest.  As in the source there is no failure
branch, in particular none for key_size above 32. -/
def QKDKeyGenerator.generate_hybrid_key (key_size : Nat)
    (raBasis raValue rbBasis rbNoise : Nat → Bool) (centropy : Nat → Nat) :
    List Nat :=
  let qkd_key := QKDKeyGenerator.generate_bb84_key key_size raBasis raValue rbBasis rbNoise
  let classical_entropy := (List.range key_size).map fun i => centropy i % 256
  let hybrid_key := List.zipWith (fun q c => q ^^^ c) qkd_key classical_entropy
  let result := blake3Hash hybrid_key
  result.take (min key_size 32)

/-- Error conditions of the engine; each constructor corresponds to one anyhow
message of the source: Ciphertext too short, Decryption failed, Session not
found, Key error. -/
inductive QKDError where
  | MalformedCiphertext
  | DecryptionFailed
  | SessionNotFound
  | KeyError
deriving DecidableEq, Repr

/-- Modelled from the spec: session ids (uuid crate, black box) as naturals
supplied by the caller side randomness. -/
abbrev Uuid := Nat

/-- Rust struct QKDEncryption of qkd.rs: a session id and its key material. -/
structure QKDEncryption where
  session_id : Uuid
  key_material : List Nat
deriving DecidableEq, Repr

/-- QKDEncryption::new_session: hybrid key material plus a fresh random id. -/
def QKDEncryption.new_session (key_size : Nat)
    (raBasis raValue rbBasis rbNoise : Nat → Bool) (centropy : Nat → Nat)
    (freshId : Uuid) : QKDEncryption :=
  { session_id := freshId,
    key_material :=
      QKDKeyGenerator.generate_hybrid_key key_size raBasis raValue rbBasis rbNoise centropy }

/-- Key derivation branch shared by encrypt and decrypt in the source: use the
first 32 bytes of the key material when it holds at least 32 bytes, otherwise
its SHA-256 digest. -/
def QKDEncryption.derived_key (e : QKDEncryption) : List Nat :=
  if 32 ≤ e.key_material.length then e.key_material.take 32
  else sha256Hash e.key_material

/-- Modelled from the spec: the ChaCha20 keystream of the external
chacha20poly1305 crate (spec section 6: authenticated stream cipher with a
256 bit key and a 96 bit nonce) as a deterministic byte stream that is a
function of key and nonce only. -/
def chachaKeystream (key nonce : List Nat) (len : Nat) : List Nat :=
  (List.range len).map fun i =>
    (key.sum * 31 + nonce.sum * 59 + i * 101 + 7) % 256

/-- Modelled from the spec: the 16 byte Poly1305 authentication tag of the
external chacha20poly1305 crate over nonce and ciphertext under the key. -/
def polyTag (key nonce ct : List Nat) : List Nat :=
  (List.range 16).map fun j =>
    (key.sum * 37 + nonce.sum + ct.sum + j * 13) % 256

/-- Modelled from the spec: AEAD encryption of the chacha20poly1305 crate,
producing ciphertext of the plaintext length followed by the 16 byte tag. -/
def aeadEncrypt (key nonce pt : List Nat) : List Nat :=
  let ct := List.zipWith (fun a b => a ^^^ b) pt (chachaKeystream key nonce pt.length)
  ct ++ polyTag key nonce ct

/-- Modelled from the spec: AEAD decryption of the chacha20poly1305 crate;
fails on input shorter than the tag and on any tag mismatch, otherwise
returns the keystream xor of the ciphertext part. -/
def aeadDecrypt (key nonce data : List Nat) : Option (List Nat) :=
  if data.length < 16 then none
  else
    let ct := data.take (data.length - 16)
    let tag := data.drop (data.length - 16)
    if tag = polyTag key nonce ct then
      some (List.zipWith (fun a b => a ^^^ b) ct (chachaKeystream key nonce ct.length))
    else none

/-- QKDEncryption::encrypt_with_key: reject a key that is not 32 bytes (the
new_from_slice check of the source), draw a fresh 12 byte nonce from the
random stream, and return nonce followed by ciphertext and tag. -/
def QKDEncryption.encrypt_with_key (key : List Nat) (nrng : Nat → Nat)
    (plaintext : List Nat) : Except QKDError (List Nat) :=
  if key.length = 32 then
    let nonce_bytes := (List.range 12).map fun i => nrng i % 256
    Except.ok (nonce_bytes ++ aeadEncrypt key nonce_bytes plaintext)
  else Except.error QKDError.KeyError

/-- QKDEncryption::encrypt: derive the key and call encrypt_with_key. -/
def QKDEncryption.encrypt (e : QKDEncryption) (nrng : Nat → Nat)
    (plaintext : List Nat) : Except QKDError (List Nat) :=
  QKDEncryption.encrypt_with_key e.derived_key nrng plaintext

/-- QKDEncryption::decrypt_with_key: the new_from_slice key check followed by
AEAD decryption; an AEAD failure is the Decryption failed condition. -/
def QKDEncryption.decrypt_with_key (key data nonce : List Nat) :
    Except QKDError (List Nat) :=
  if key.length = 32 then
    match aeadDecrypt key nonce data with
    | some pt => Except.ok pt
    | none => Except.error QKDError.DecryptionFailed
  else Except.error QKDError.KeyError

/-- QKDEncryption::decrypt: the Ciphertext too short check for fewer than 12
bytes, then split nonce from body, derive the key and call decrypt_with_key. -/
def QKDEncryption.decrypt (e : QKDEncryption) (ciphertext : List Nat) :
    Except QKDError (List Nat) :=
  if ciphertext.length < 12 then Except.error QKDError.MalformedCiphertext
  else
    QKDEncryption.decrypt_with_key e.derived_key (ciphertext.drop 12)
      (ciphertext.take 12)

/-- Rust struct QKDSession of db/models.rs; timestamps are seconds held in an
integer, the now value of chrono Utc::now being passed in explicitly. -/
structure QKDSession where
  id : Uuid
  algorithm : String
  key_material : List Nat
  created_at : Int
  expires_at : Option Int
deriving DecidableEq, Repr

/-- Modelled from the spec: the qkd_sessions table of the redb store together
with the serde_json round trip (spec section 4.6: put then get by id returns
the most recently put record), as an association list newest first. -/
abbrev SessionStore := List (Uuid × QKDSession)

/-- qkd_sessions::insert of db/redb_client.rs over the modelled store. -/
def qkd_sessions.insert (st : SessionStore) (session : QKDSession) : SessionStore :=
  (session.id, session) :: st

/-- qkd_sessions::get_by_id of db/redb_client.rs over the modelled store. -/
def qkd_sessions.get_by_id (st : SessionStore) (id : Uuid) : Option QKDSession :=
  (st.find? fun p => p.1 == id).map fun p => p.2

/-- QKDEncryption::save_session: build the record with created_at the current
time of the save call and expires_at 24 hours later, and insert it. -/
def QKDEncryption.save_session (e : QKDEncryption) (now : Int)
    (st : SessionStore) : SessionStore :=
  qkd_sessions.insert st
    { id := e.session_id
      algorithm := "BB84-Hybrid"
      key_material := e.key_material
      created_at := now
      expires_at := some (now + 24 * 3600) }

/-- QKDEncryption::load_session: a miss is the Session not found condition. -/
def QKDEncryption.load_session (st : SessionStore) (session_id : Uuid) :
    Except QKDError QKDEncryption :=
  match qkd_sessions.get_by_id st session_id with
  | none => Except.error QKDError.SessionNotFound
  | some session =>
      Except.ok { session_id := session.id, key_material := session.key_material }

/-! ### Helper lemmas on the bit packing loop -/

theorem packBitsAux_acc (bits : List Bool) :
    ∀ cur cnt acc, packBitsAux bits cur cnt acc = acc ++ packBitsAux bits cur cnt [] := by
  induction bits with
  | nil => intro cur cnt acc; simp [packBitsAux]
  | cons b rest ih =>
      intro cur cnt acc
      simp only [packBitsAux]
      by_cases h : cnt + 1 == 8
      · simp only [h, if_pos]
        rw [ih _ _ (acc ++ _), ih _ _ ([] ++ _)]
        simp
      · simp only [h, if_neg, Bool.false_eq_true, ite_false]
        exact ih _ _ acc

theorem packBitsAux_eight (b1 b2 b3 b4 b5 b6 b7 b8 : Bool) (rest : List Bool) :
    packBitsAux (b1 :: b2 :: b3 :: b4 :: b5 :: b6 :: b7 :: b8 :: rest) 0 0 [] =
      chunkByte [b1, b2, b3, b4, b5, b6, b7, b8] :: packBitsAux rest 0 0 [] := by
  simp only [packBitsAux, chunkByte, List.foldl]
  norm_num
  rw [packBitsAux_acc]
  simp

theorem packBitsAux_short (bits : List Bool) :
    ∀ cur cnt acc, bits.length + cnt < 8 → packBitsAux bits cur cnt acc = acc := by
  induction bits with
  | nil => intro cur cnt acc _; simp [packBitsAux]
  | cons b rest ih =>
      intro cur cnt acc h
      simp only [List.length_cons] at h
      have hne : ¬ (cnt + 1 == 8) := by
        simp only [beq_iff_eq]; omega
      simp only [packBitsAux, hne, Bool.false_eq_true, ite_false]
      exact ih _ _ acc (by omega)

theorem packBitsAux_eq_packChunks (bits : List Bool) :
    packBitsAux bits 0 0 [] = packChunks bits := by
  induction bits using packChunks.induct with
  | case1 b1 b2 b3 b4 b5 b6 b7 b8 rest ih =>
      rw [packBitsAux_eight, ih]
      simp [packChunks]
  | case2 t h =>
      rcases t with _ | ⟨b1, _ | ⟨b2, _ | ⟨b3, _ | ⟨b4, _ | ⟨b5, _ | ⟨b6, _ | ⟨b7, _ | ⟨b8, rest⟩⟩⟩⟩⟩⟩⟩⟩
      · rfl
      · rfl
      · rfl
      · rfl
      · rfl
      · rfl
      · rfl
      · rfl
      · exact absurd rfl (h b1 b2 b3 b4 b5 b6 b7 b8 rest)

theorem packChunks_length (bits : List Bool) :
    (packChunks bits).length = bits.length / 8 := by
  induction bits using packChunks.induct with
  | case1 b1 b2 b3 b4 b5 b6 b7 b8 rest ih =>
      simp only [packChunks, List.length_cons, ih]
      omega
  | case2 t h =>
      rcases t with _ | ⟨b1, _ | ⟨b2, _ | ⟨b3, _ | ⟨b4, _ | ⟨b5, _ | ⟨b6, _ | ⟨b7, _ | ⟨b8, rest⟩⟩⟩⟩⟩⟩⟩⟩
      · simp [packChunks]
      · simp [packChunks]
      · simp [packChunks]
      · simp [packChunks]
      · simp [packChunks]
      · simp [packChunks]
      · simp [packChunks]
      · simp [packChunks]
      · exact absurd rfl (h b1 b2 b3 b4 b5 b6 b7 b8 rest)

theorem finalize_key_length (bits : List Bool) (t : Nat) :
    (BB84Simulator.finalize_key bits t).length = t := by
  simp only [BB84Simulator.finalize_key, List.length_take, List.length_append,
    List.length_replicate]
  omega

theorem finalize_key_eq_packChunks (bits : List Bool) (t : Nat) :
    BB84Simulator.finalize_key bits t =
      (packChunks (bits.take (t * 8)) ++ List.replicate t 0).take t := by
  have hlen : (packChunks (bits.take (t * 8))).length ≤ t := by
    rw [packChunks_length, List.length_take]
    omega
  simp only [BB84Simulator.finalize_key, packBitsAux_eq_packChunks,
    List.take_append_eq_append_take, List.take_replicate]
  congr 2
  omega

/-! ### Helper lemmas on sifting -/

theorem basisMatch_eq_decide (a b : QuantumBasis) : basisMatch a b = decide (a = b) := by
  cases a <;> cases b <;> rfl

theorem sift_key_cons (a b : QuantumBasis) (v : Bool) (as bs : List QuantumBasis)
    (vs : List Bool) :
    BB84Simulator.sift_key (a :: as) (b :: bs) (v :: vs) =
      (if a = b then [v] else []) ++ BB84Simulator.sift_key as bs vs := by
  simp only [BB84Simulator.sift_key, List.zip_cons_cons, List.filterMap_cons,
    basisMatch_eq_decide]
  by_cases hab : a = b
  · simp [hab]
  · simp [hab]

theorem siftSpec_cons (a b : QuantumBasis) (v : Bool) (as bs : List QuantumBasis)
    (vs : List Bool) :
    siftSpec (a :: as) (b :: bs) (v :: vs) =
      (if a = b then [v] else []) ++ siftSpec as bs vs := by
  simp only [siftSpec, List.length_cons, List.range_succ_eq_map, List.filterMap_cons,
    List.getElem?_cons_zero, List.filterMap_map, Function.comp,
    List.getElem?_cons_succ]
  have htail : List.filterMap
      ((fun i =>
          match (a :: as)[i]?, (b :: bs)[i]?, (v :: vs)[i]? with
          | some a2, some b2, some v2 => if a2 = b2 then some v2 else none
          | _, _, _ => none) ∘ Nat.succ) (List.range vs.length) =
      List.filterMap
        (fun i =>
          match as[i]?, bs[i]?, vs[i]? with
          | some a2, some b2, some v2 => if a2 = b2 then some v2 else none
          | _, _, _ => none) (List.range vs.length) := by
    congr 1
    funext i
    simp [Function.comp, List.getElem?_cons_succ]
  rw [htail]
  by_cases hab : a = b
  · simp [hab]
  · simp [hab]

theorem sift_key_eq_siftSpec (as : List QuantumBasis) :
    ∀ (bs : List QuantumBasis) (vs : List Bool), as.length = bs.length →
      bs.length = vs.length →
      BB84Simulator.sift_key as bs vs = siftSpec as bs vs := by
  induction as with
  | nil =>
      intro bs vs h1 h2
      cases bs with
      | nil =>
          cases vs with
          | nil => rfl
          | cons v vs => simp at h2
      | cons b bs => simp at h1
  | cons a as ih =>
      intro bs vs h1 h2
      cases bs with
      | nil => simp at h1
      | cons b bs =>
          cases vs with
          | nil => simp at h2
          | cons v vs =>
              rw [sift_key_cons, siftSpec_cons, ih bs vs (by simpa using h1) (by simpa using h2)]

theorem sift_key_length_countP (as : List QuantumBasis) :
    ∀ (bs : List QuantumBasis) (vs : List Bool), as.length = bs.length →
      bs.length = vs.length →
      (BB84Simulator.sift_key as bs vs).length =
        (as.zip bs).countP fun p => basisMatch p.1 p.2 := by
  induction as with
  | nil =>
      intro bs vs h1 h2
      cases bs with
      | nil => rfl
      | cons b bs => simp at h1
  | cons a as ih =>
      intro bs vs h1 h2
      cases bs with
      | nil => simp at h1
      | cons b bs =>
          cases vs with
          | nil => simp at h2
          | cons v vs =>
              rw [sift_key_cons]
              simp only [List.zip_cons_cons, List.countP_cons, List.length_append,
                ih bs vs (by simpa using h1) (by simpa using h2), basisMatch_eq_decide]
              by_cases hab : a = b
              · simp [hab, Nat.add_comm]
              · simp [hab]

/-! ### Helper lemmas on digests, the AEAD model and the engine -/

theorem sha256Hash_length (data : List Nat) : (sha256Hash data).length = 32 := by
  simp [sha256Hash]

theorem blake3Hash_length (data : List Nat) : (blake3Hash data).length = 32 := by
  simp [blake3Hash]

theorem derived_key_length (e : QKDEncryption) : e.derived_key.length = 32 := by
  unfold QKDEncryption.derived_key
  by_cases h : 32 ≤ e.key_material.length
  · rw [if_pos h, List.length_take]
    omega
  · rw [if_neg h, sha256Hash_length]

theorem chachaKeystream_length (key nonce : List Nat) (len : Nat) :
    (chachaKeystream key nonce len).length = len := by
  simp [chachaKeystream]

theorem polyTag_length (key nonce ct : List Nat) : (polyTag key nonce ct).length = 16 := by
  simp [polyTag]

theorem aeadEncrypt_length (key nonce pt : List Nat) :
    (aeadEncrypt key nonce pt).length = pt.length + 16 := by
  simp [aeadEncrypt, List.length_zipWith, chachaKeystream_length, polyTag_length]

theorem zipWith_xor_cancel (l : List Nat) :
    ∀ m : List Nat,
      List.zipWith (fun a b => a ^^^ b) (List.zipWith (fun a b => a ^^^ b) l m) m =
        l.take m.length := by
  induction l with
  | nil => intro m; simp
  | cons x l ih =>
      intro m
      cases m with
      | nil => simp
      | cons y m => simp [ih, Nat.xor_cancel_right]

theorem aeadDecrypt_aeadEncrypt (key nonce pt : List Nat) :
    aeadDecrypt key nonce (aeadEncrypt key nonce pt) = some pt := by
  unfold aeadEncrypt aeadDecrypt
  set ct := List.zipWith (fun a b => a ^^^ b) pt (chachaKeystream key nonce pt.length)
    with hctdef
  have hct : ct.length = pt.length := by
    simp [hctdef, List.length_zipWith, chachaKeystream_length]
  have hlen : (ct ++ polyTag key nonce ct).length = pt.length + 16 := by
    simp [List.length_append, polyTag_length, hct]
  rw [if_neg (by rw [hlen]; omega)]
  have hsub : (ct ++ polyTag key nonce ct).length - 16 = ct.length := by omega
  rw [hsub, List.take_left' rfl, List.drop_left' rfl, if_pos rfl, hct, hctdef,
    zipWith_xor_cancel, chachaKeystream_length, List.take_length]

theorem encrypt_eq (e : QKDEncryption) (nrng : Nat → Nat) (pt : List Nat) :
    e.encrypt nrng pt =
      Except.ok (((List.range 12).map fun i => nrng i % 256) ++
        aeadEncrypt e.derived_key ((List.range 12).map fun i => nrng i % 256) pt) := by
  unfold QKDEncryption.encrypt QKDEncryption.encrypt_with_key
  rw [if_pos (derived_key_length e)]

theorem decrypt_append (e : QKDEncryption) (nonce rest : List Nat)
    (hn : nonce.length = 12) :
    e.decrypt (nonce ++ rest) =
      QKDEncryption.decrypt_with_key e.derived_key rest nonce := by
  unfold QKDEncryption.decrypt
  rw [if_neg (by rw [List.length_append, hn]; omega)]
  rw [List.drop_left' hn, List.take_left' hn]

/-! ### Helper lemmas for single byte tampering -/

theorem flip_take_drop_lt (pre suf : List Nat) (x : Nat) (n : Nat) (h : pre.length < n) :
    (pre ++ x :: suf).take n = pre ++ x :: suf.take (n - pre.length - 1) ∧
    (pre ++ x :: suf).drop n = suf.drop (n - pre.length - 1) := by
  have hsucc : n - pre.length = (n - pre.length - 1) + 1 := by omega
  constructor
  · rw [List.take_append_eq_append_take, List.take_of_length_le (le_of_lt h), hsucc,
      List.take_succ_cons]
    simp
  · rw [List.drop_append_eq_append_drop, List.drop_eq_nil_of_le (le_of_lt h), hsucc,
      List.drop_succ_cons, List.nil_append]
    simp

theorem flip_take_drop_ge (pre suf : List Nat) (x : Nat) (n : Nat) (h : n ≤ pre.length) :
    (pre ++ x :: suf).take n = pre.take n ∧
    (pre ++ x :: suf).drop n = pre.drop n ++ x :: suf := by
  have h0 : n - pre.length = 0 := by omega
  constructor
  · rw [List.take_append_eq_append_take, h0, List.take_zero, List.append_nil]
  · rw [List.drop_append_eq_append_drop, h0, List.drop_zero]

theorem chachaKeystream_bytes_lt (key nonce : List Nat) (len : Nat) :
    ∀ x ∈ chachaKeystream key nonce len, x < 256 := by
  intro x hx
  simp only [chachaKeystream, List.mem_map, List.mem_range] at hx
  obtain ⟨i, _, rfl⟩ := hx
  exact Nat.mod_lt _ (by norm_num)

theorem polyTag_bytes_lt (key nonce ct : List Nat) :
    ∀ x ∈ polyTag key nonce ct, x < 256 := by
  intro x hx
  simp only [polyTag, List.mem_map, List.mem_range] at hx
  obtain ⟨j, _, rfl⟩ := hx
  exact Nat.mod_lt _ (by norm_num)

theorem nonce_bytes_lt (nrng : Nat → Nat) :
    ∀ x ∈ (List.range 12).map fun i => nrng i % 256, x < 256 := by
  intro x hx
  simp only [List.mem_map, List.mem_range] at hx
  obtain ⟨i, _, rfl⟩ := hx
  exact Nat.mod_lt _ (by norm_num)

theorem zipWith_xor_bytes_lt (l : List Nat) :
    ∀ m : List Nat, (∀ a ∈ l, a < 256) → (∀ b ∈ m, b < 256) →
      ∀ x ∈ List.zipWith (fun a b => a ^^^ b) l m, x < 256 := by
  induction l with
  | nil => intro m _ _ x hx; simp at hx
  | cons a l ih =>
      intro m hl hm x hx
      cases m with
      | nil => simp at hx
      | cons b m =>
          simp only [List.zipWith_cons_cons, List.mem_cons] at hx
          rcases hx with rfl | hx
          · have ha : a < 2 ^ 8 := by simpa using hl a (by simp)
            have hb : b < 2 ^ 8 := by simpa using hm b (by simp)
            have hxor := Nat.xor_lt_two_pow ha hb
            simpa using hxor
          · exact ih m (fun y hy => hl y (by simp [hy])) (fun y hy => hm y (by simp [hy])) x hx

theorem env_bytes_lt (key nonce pt : List Nat)
    (hn : ∀ x ∈ nonce, x < 256) (hp : ∀ x ∈ pt, x < 256) :
    ∀ x ∈ nonce ++ aeadEncrypt key nonce pt, x < 256 := by
  intro x hx
  rw [List.mem_append] at hx
  rcases hx with hx | hx
  · exact hn x hx
  · unfold aeadEncrypt at hx
    rw [List.mem_append] at hx
    rcases hx with hx | hx
    · exact zipWith_xor_bytes_lt pt _ hp (chachaKeystream_bytes_lt key nonce _) x hx
    · exact polyTag_bytes_lt key nonce _ x hx

theorem polyTag_head (key nonce ct : List Nat) :
    (polyTag key nonce ct).head? = some ((key.sum * 37 + nonce.sum + ct.sum) % 256) := by
  rw [polyTag, List.head?_map]
  have h0 : (List.range 16).head? = some 0 := by decide
  rw [h0]
  simp

theorem polyTag_ne (key n1 c1 n2 c2 : List Nat) (b bp : Nat)
    (hb : b < 256) (hbp : bp < 256) (hne : bp ≠ b)
    (hsum : n1.sum + c1.sum + bp = n2.sum + c2.sum + b) :
    polyTag key n1 c1 ≠ polyTag key n2 c2 := by
  intro h
  have h0 := congrArg List.head? h
  rw [polyTag_head, polyTag_head] at h0
  have h1 : (key.sum * 37 + n1.sum + c1.sum) % 256 =
      (key.sum * 37 + n2.sum + c2.sum) % 256 := by
    simpa using h0
  omega

theorem aeadDecrypt_flip (key nonce ct : List Nat) (pre suf : List Nat) (b bp : Nat)
    (hn : nonce.length = 12)
    (hsplit : nonce ++ (ct ++ polyTag key nonce ct) = pre ++ b :: suf)
    (hb : b < 256) (hbp : bp < 256) (hne : bp ≠ b) :
    aeadDecrypt key ((pre ++ bp :: suf).take 12) ((pre ++ bp :: suf).drop 12) = none := by
  have hT : (polyTag key nonce ct).length = 16 := polyTag_length key nonce ct
  by_cases hpre : pre.length < 12
  · obtain ⟨ht, hd⟩ := flip_take_drop_lt pre suf bp 12 hpre
    obtain ⟨ht0, hd0⟩ := flip_take_drop_lt pre suf b 12 hpre
    have h1 : nonce = pre ++ b :: suf.take (12 - pre.length - 1) := by
      have h2 := congrArg (List.take 12) hsplit
      rw [List.take_left' hn, ht0] at h2
      exact h2
    have hrest : ct ++ polyTag key nonce ct = suf.drop (12 - pre.length - 1) := by
      have h2 := congrArg (List.drop 12) hsplit
      rw [List.drop_left' hn, hd0] at h2
      exact h2
    rw [ht, hd, ← hrest]
    have e1 := congrArg List.sum h1
    simp only [List.sum_append, List.sum_cons] at e1
    have e2 : (pre ++ bp :: suf.take (12 - pre.length - 1)).sum =
        pre.sum + (bp + (suf.take (12 - pre.length - 1)).sum) := by
      simp only [List.sum_append, List.sum_cons]
    have htagne := polyTag_ne key nonce ct
      (pre ++ bp :: suf.take (12 - pre.length - 1)) ct b bp hb hbp hne (by omega)
    unfold aeadDecrypt
    have hlen : (ct ++ polyTag key nonce ct).length = ct.length + 16 := by
      rw [List.length_append, hT]
    rw [if_neg (by omega)]
    have hsub : (ct ++ polyTag key nonce ct).length - 16 = ct.length := by omega
    rw [hsub, List.take_left' rfl, List.drop_left' rfl, if_neg htagne]
  · push_neg at hpre
    obtain ⟨ht, hd⟩ := flip_take_drop_ge pre suf bp 12 hpre
    obtain ⟨ht0, hd0⟩ := flip_take_drop_ge pre suf b 12 hpre
    have h1 : nonce = pre.take 12 := by
      have h2 := congrArg (List.take 12) hsplit
      rw [List.take_left' hn, ht0] at h2
      exact h2
    have hrest : ct ++ polyTag key nonce ct = pre.drop 12 ++ b :: suf := by
      have h2 := congrArg (List.drop 12) hsplit
      rw [List.drop_left' hn, hd0] at h2
      exact h2
    rw [ht, hd, ← h1]
    set pre2 := pre.drop 12 with hp2
    have hlen2 : ct.length + 16 = pre2.length + 1 + suf.length := by
      have h3 := congrArg List.length hrest
      simp only [List.length_append, List.length_cons, hT] at h3
      omega
    have hdlen : (pre2 ++ bp :: suf).length = ct.length + 16 := by
      simp only [List.length_append, List.length_cons]
      omega
    by_cases hq : pre2.length < ct.length
    · obtain ⟨ht2, hd2⟩ := flip_take_drop_lt pre2 suf bp ct.length hq
      obtain ⟨ht20, hd20⟩ := flip_take_drop_lt pre2 suf b ct.length hq
      have hct : ct = pre2 ++ b :: suf.take (ct.length - pre2.length - 1) := by
        have h2 := congrArg (List.take ct.length) hrest
        rw [List.take_left' rfl, ht20] at h2
        exact h2
      have htag : polyTag key nonce ct = suf.drop (ct.length - pre2.length - 1) := by
        have h2 := congrArg (List.drop ct.length) hrest
        rw [List.drop_left' rfl, hd20] at h2
        exact h2
      have e1 := congrArg List.sum hct
      simp only [List.sum_append, List.sum_cons] at e1
      have e2 : (pre2 ++ bp :: suf.take (ct.length - pre2.length - 1)).sum =
          pre2.sum + (bp + (suf.take (ct.length - pre2.length - 1)).sum) := by
        simp only [List.sum_append, List.sum_cons]
      have htagne := polyTag_ne key nonce ct nonce
        (pre2 ++ bp :: suf.take (ct.length - pre2.length - 1)) b bp hb hbp hne (by omega)
      unfold aeadDecrypt
      rw [if_neg (by omega)]
      rw [hdlen]
      have hsub : ct.length + 16 - 16 = ct.length := by omega
      rw [hsub, ht2, hd2, ← htag, if_neg htagne]
    · push_neg at hq
      obtain ⟨ht2, hd2⟩ := flip_take_drop_ge pre2 suf bp ct.length hq
      obtain ⟨ht20, hd20⟩ := flip_take_drop_ge pre2 suf b ct.length hq
      have hct : ct = pre2.take ct.length := by
        have h2 := congrArg (List.take ct.length) hrest
        rw [List.take_left' rfl, ht20] at h2
        exact h2
      have htag : polyTag key nonce ct = pre2.drop ct.length ++ b :: suf := by
        have h2 := congrArg (List.drop ct.length) hrest
        rw [List.drop_left' rfl, hd20] at h2
        exact h2
      have htagne : pre2.drop ct.length ++ bp :: suf ≠ polyTag key nonce ct := by
        rw [htag]
        intro hcontra
        have h4 := List.append_cancel_left hcontra
        simp only [List.cons.injEq] at h4
        exact hne h4.1
      unfold aeadDecrypt
      rw [if_neg (by omega)]
      rw [hdlen]
      have hsub : ct.length + 16 - 16 = ct.length := by omega
      rw [hsub, ht2, hd2, ← hct, if_neg htagne]

/-! ### Helper lemmas on the session store -/

theorem load_after_save (e : QKDEncryption) (now : Int) (st : SessionStore) :
    QKDEncryption.load_session (e.save_session now st) e.session_id =
      Except.ok { session_id := e.session_id, key_material := e.key_material } := by
  unfold QKDEncryption.save_session qkd_sessions.insert QKDEncryption.load_session
    qkd_sessions.get_by_id
  simp

theorem load_not_found (st : SessionStore) (id : Uuid)
    (h : ∀ p ∈ st, p.1 ≠ id) :
    QKDEncryption.load_session st id = Except.error QKDError.SessionNotFound := by
  unfold QKDEncryption.load_session qkd_sessions.get_by_id
  have hfind : st.find? (fun p => p.1 == id) = none := by
    rw [List.find?_eq_none]
    intro p hp
    simpa using h p hp
  rw [hfind]
  rfl

/-! ### Claim theorems -/

/-- Claim C1: for every session (any key material) and every plaintext byte
sequence, decrypt applied on the same session to the envelope returned by
encrypt succeeds and returns exactly the plaintext. -/
theorem claim1_encrypt_decrypt_roundtrip (e : QKDEncryption) (nrng : Nat → Nat)
    (pt : List Nat) :
    Except.bind (e.encrypt nrng pt) e.decrypt = Except.ok pt := by
  rw [encrypt_eq]
  have hb : ∀ (x : List Nat) (f : List Nat → Except QKDError (List Nat)),
      Except.bind (Except.ok x) f = f x := fun _ _ => rfl
  rw [hb]
  rw [decrypt_append _ _ _ (by simp)]
  unfold QKDEncryption.decrypt_with_key
  rw [if_pos (derived_key_length e), aeadDecrypt_aeadEncrypt]

/-- Claim C2 (amended): generate_bb84_key always returns exactly key_size
bytes, while generate_hybrid_key returns exactly min key_size 32 bytes:
exactly key_size bytes for requests of at most 32 bytes, and for larger
requests it succeeds with the clamped 32 byte digest rather than failing. -/
theorem claim2_key_lengths (key_size : Nat) (raB raV rbB rbN : Nat → Bool)
    (ce : Nat → Nat) :
    (QKDKeyGenerator.generate_bb84_key key_size raB raV rbB rbN).length = key_size ∧
    (QKDKeyGenerator.generate_hybrid_key key_size raB raV rbB rbN ce).length =
      min key_size 32 := by
  constructor
  · unfold QKDKeyGenerator.generate_bb84_key
    exact finalize_key_length _ _
  · unfold QKDKeyGenerator.generate_hybrid_key
    rw [List.length_take, blake3Hash_length]
    omega

/-- Claim C2 counterexample: a request for 33 bytes neither fails (the
function is total) nor returns 33 bytes; it succeeds with a 32 byte key,
refuting that every key-producing operation returns exactly the requested
length or fails above 32. -/
theorem claim2_counterexample :
    (QKDKeyGenerator.generate_hybrid_key 33 (fun _ => false) (fun _ => false)
      (fun _ => false) (fun _ => false) (fun _ => 0)).length ≠ 33 := by
  unfold QKDKeyGenerator.generate_hybrid_key
  rw [List.length_take, blake3Hash_length]
  omega

/-- Claim C3 (amended): finalize_key is a pure function whose output length is
always exactly target_bytes, packing bits most significant first, eight per
byte, from at most target_bytes * 8 input bits; but only complete groups of
eight bits are packed: a trailing group of fewer than eight bits is discarded
and replaced by zero padding, rather than being packed high with low zero
fill. -/
theorem claim3_finalize_shape (bits : List Bool) (t : Nat) :
    (BB84Simulator.finalize_key bits t).length = t ∧
    BB84Simulator.finalize_key bits t =
      (packChunks (bits.take (t * 8)) ++ List.replicate t 0).take t :=
  ⟨finalize_key_length bits t, finalize_key_eq_packChunks bits t⟩

/-- Claim C3 counterexample: on a single input bit set to one with one target
byte, the code produces the zero byte, while packing the real input bits
followed by zero padding on the low end would produce 128. -/
theorem claim3_counterexample :
    BB84Simulator.finalize_key [true] 1 = [0] ∧ specFinalizeKey [true] 1 = [128] ∧
    BB84Simulator.finalize_key [true] 1 ≠ specFinalizeKey [true] 1 := by
  refine ⟨by decide, by decide, by decide⟩

/-- Claim C4 (amended): new_session stores only the fresh id and the hybrid
key material and records no timestamp at all; save_session stamps created_at
with the current time of the save call, not of session creation, and itself
attaches expires_at equal to that save time plus 24 hours. -/
theorem claim4_session_fields (key_size : Nat) (raB raV rbB rbN : Nat → Bool)
    (ce : Nat → Nat) (freshId : Uuid) (e : QKDEncryption) (now : Int)
    (st : SessionStore) :
    QKDEncryption.new_session key_size raB raV rbB rbN ce freshId =
      { session_id := freshId,
        key_material :=
          QKDKeyGenerator.generate_hybrid_key key_size raB raV rbB rbN ce } ∧
    e.save_session now st =
      (e.session_id,
        { id := e.session_id, algorithm := "BB84-Hybrid",
          key_material := e.key_material, created_at := now,
          expires_at := some (now + 24 * 3600) }) :: st :=
  ⟨rfl, rfl⟩

/-- Claim C4 counterexample: saving the same session at two different times
persists two different created_at values, so the persisted created_at is the
save time and cannot be a creation time fixed by new_session; moreover save
itself attaches a 24 hour expiry. -/
theorem claim4_counterexample :
    ((QKDEncryption.save_session { session_id := 0, key_material := [1, 2, 3] } 5 []).map
        fun p => p.2.created_at) ≠
      ((QKDEncryption.save_session { session_id := 0, key_material := [1, 2, 3] } 9 []).map
        fun p => p.2.created_at) ∧
    ((QKDEncryption.save_session { session_id := 0, key_material := [1, 2, 3] } 5 []).map
        fun p => p.2.expires_at) = [some 86405] := by
  refine ⟨by decide, by decide⟩

/-- Claim C5: decrypt on an envelope of fewer than 12 bytes fails with the
malformed ciphertext condition; the branch returns before any key derivation
or cipher call. -/
theorem claim5_malformed (e : QKDEncryption) (c : List Nat) (h : c.length < 12) :
    e.decrypt c = Except.error QKDError.MalformedCiphertext := by
  unfold QKDEncryption.decrypt
  rw [if_pos h]

/-- Claim C5 witness at a concrete three byte envelope. -/
theorem claim5_witness :
    QKDEncryption.decrypt { session_id := 0, key_material := [1, 2, 3] } [0, 1, 2] =
      Except.error QKDError.MalformedCiphertext :=
  claim5_malformed { session_id := 0, key_material := [1, 2, 3] } [0, 1, 2] (by decide)

/-- Claim C6: flipping any single byte, at any position, of a valid envelope
produced by encrypt makes decrypt on the same session fail with the
decryption failed condition; the flipped envelope is written as the
decomposition pre, flipped byte, suffix of the original envelope. -/
theorem claim6_tamper (e : QKDEncryption) (nrng : Nat → Nat)
    (pt env pre suf : List Nat) (b bp : Nat)
    (hpt : ∀ x ∈ pt, x < 256) (henc : e.encrypt nrng pt = Except.ok env)
    (hsplit2 : env = pre ++ b :: suf) (hbp : bp < 256) (hne : bp ≠ b) :
    e.decrypt (pre ++ bp :: suf) = Except.error QKDError.DecryptionFailed := by
  rw [encrypt_eq] at henc
  have henv0 : ((List.range 12).map fun i => nrng i % 256) ++
      aeadEncrypt e.derived_key ((List.range 12).map fun i => nrng i % 256) pt =
      pre ++ b :: suf := (Except.ok.inj henc).trans hsplit2
  have hn : ((List.range 12).map fun i => nrng i % 256).length = 12 := by simp
  have hbmem : b ∈ ((List.range 12).map fun i => nrng i % 256) ++
      aeadEncrypt e.derived_key ((List.range 12).map fun i => nrng i % 256) pt := by
    rw [henv0]
    simp
  have hb : b < 256 :=
    env_bytes_lt e.derived_key _ pt (nonce_bytes_lt nrng) hpt b hbmem
  have hsplit : ((List.range 12).map fun i => nrng i % 256) ++
      (List.zipWith (fun a c => a ^^^ c) pt
          (chachaKeystream e.derived_key ((List.range 12).map fun i => nrng i % 256)
            pt.length) ++
        polyTag e.derived_key ((List.range 12).map fun i => nrng i % 256)
          (List.zipWith (fun a c => a ^^^ c) pt
            (chachaKeystream e.derived_key ((List.range 12).map fun i => nrng i % 256)
              pt.length))) = pre ++ b :: suf := by
    have h2 := henv0
    simp only [aeadEncrypt] at h2
    exact h2
  have hlenenv : 12 + (pt.length + 16) = pre.length + (1 + suf.length) := by
    have h3 := congrArg List.length henv0
    simp only [List.length_append, List.length_cons, List.length_map,
      List.length_range, aeadEncrypt_length] at h3
    omega
  unfold QKDEncryption.decrypt
  rw [if_neg (by simp only [List.length_append, List.length_cons]; omega)]
  unfold QKDEncryption.decrypt_with_key
  rw [if_pos (derived_key_length e),
    aeadDecrypt_flip e.derived_key _ _ pre suf b bp hn hsplit hb hbp hne]

/-- Engine with a fixed 32 byte key material used by the claim C6 witness. -/
def tamperWitnessEngine : QKDEncryption :=
  { session_id := 0, key_material := List.replicate 32 1 }

/-- The concrete envelope the claim C6 witness flips: encryption of the one
byte plaintext 5 under an all zero nonce stream. -/
def tamperWitnessEnv : List Nat :=
  match tamperWitnessEngine.encrypt (fun _ => 0) [5] with
  | Except.ok v => v
  | Except.error _ => []

/-- Claim C6 witness: flipping the first byte of the concrete envelope from 0
to 1 makes decrypt fail with the decryption failed condition. -/
theorem claim6_witness :
    tamperWitnessEngine.decrypt (1 :: tamperWitnessEnv.tail) =
      Except.error QKDError.DecryptionFailed :=
  claim6_tamper tamperWitnessEngine (fun _ => 0) [5] tamperWitnessEnv []
    tamperWitnessEnv.tail 0 1 (by decide) (by rfl) (by rfl) (by decide) (by decide)

/-- Claim C7: saving a session then loading it by its id yields a session with
byte identical key material and id, and loading an id for which no record
exists fails with the session not found condition. -/
theorem claim7_store_roundtrip (e : QKDEncryption) (now : Int) (st : SessionStore)
    (id : Uuid) (h : ∀ p ∈ st, p.1 ≠ id) :
    QKDEncryption.load_session (e.save_session now st) e.session_id =
      Except.ok { session_id := e.session_id, key_material := e.key_material } ∧
    QKDEncryption.load_session st id = Except.error QKDError.SessionNotFound :=
  ⟨load_after_save e now st, load_not_found st id h⟩

/-- Claim C7 witness at a concrete session and the empty store. -/
theorem claim7_witness :
    QKDEncryption.load_session
        (QKDEncryption.save_session { session_id := 7, key_material := [9, 8] } 0 []) 7 =
      Except.ok { session_id := 7, key_material := [9, 8] } ∧
    QKDEncryption.load_session [] 3 = Except.error QKDError.SessionNotFound :=
  claim7_store_roundtrip { session_id := 7, key_material := [9, 8] } 0 [] 3 (by simp)

/-- Claim C8: generate_bb84_key with requested size key_size builds a
simulator over exactly key_size * 16 qubits, alice prepares exactly that many
qubits, and the finalized result has exactly key_size bytes. -/
theorem claim8_bb84_pipeline (key_size : Nat) (raB raV rbB rbN : Nat → Bool) :
    (BB84Simulator.new (key_size * 16)).bits_count = key_size * 16 ∧
    ((BB84Simulator.new (key_size * 16)).alice_prepare raB raV).1.length =
      key_size * 16 ∧
    (QKDKeyGenerator.generate_bb84_key key_size raB raV rbB rbN).length = key_size := by
  refine ⟨rfl, ?_, ?_⟩
  · simp [BB84Simulator.alice_prepare, BB84Simulator.new]
  · unfold QKDKeyGenerator.generate_bb84_key
    exact finalize_key_length _ _

/-- Claim C9: on equal length inputs, sifting keeps exactly the receiver
values at positions where the bases match, in input order, and the output
length equals the number of matching positions. -/
theorem claim9_sift_correct (as bs : List QuantumBasis) (vs : List Bool)
    (h1 : as.length = bs.length) (h2 : bs.length = vs.length) :
    BB84Simulator.sift_key as bs vs = siftSpec as bs vs ∧
    (BB84Simulator.sift_key as bs vs).length =
      (as.zip bs).countP (fun p => basisMatch p.1 p.2) :=
  ⟨sift_key_eq_siftSpec as bs vs h1 h2, sift_key_length_countP as bs vs h1 h2⟩

/-- Claim C9 witness on a concrete two position instance with one matching
basis position. -/
theorem claim9_witness :
    BB84Simulator.sift_key [QuantumBasis.Rectilinear, QuantumBasis.Diagonal]
        [QuantumBasis.Rectilinear, QuantumBasis.Rectilinear] [true, false] =
      siftSpec [QuantumBasis.Rectilinear, QuantumBasis.Diagonal]
        [QuantumBasis.Rectilinear, QuantumBasis.Rectilinear] [true, false] ∧
    (BB84Simulator.sift_key [QuantumBasis.Rectilinear, QuantumBasis.Diagonal]
        [QuantumBasis.Rectilinear, QuantumBasis.Rectilinear] [true, false]).length =
      ([QuantumBasis.Rectilinear, QuantumBasis.Diagonal].zip
          [QuantumBasis.Rectilinear, QuantumBasis.Rectilinear]).countP
        (fun p => basisMatch p.1 p.2) :=
  claim9_sift_correct [QuantumBasis.Rectilinear, QuantumBasis.Diagonal]
    [QuantumBasis.Rectilinear, QuantumBasis.Rectilinear] [true, false]
    (by decide) (by decide)

/-- Claim C10: an envelope of length at least 12 but below 28 passes the
initial nonce length check and fails with the decryption failed condition,
because the body after the nonce is shorter than the 16 byte tag; such inputs
never yield malformed ciphertext and never yield plaintext. -/
theorem claim10_short_body (e : QKDEncryption) (c : List Nat)
    (h1 : 12 ≤ c.length) (h2 : c.length < 28) :
    e.decrypt c = Except.error QKDError.DecryptionFailed := by
  unfold QKDEncryption.decrypt
  rw [if_neg (by omega)]
  unfold QKDEncryption.decrypt_with_key
  rw [if_pos (derived_key_length e)]
  have hd : (c.drop 12).length < 16 := by
    rw [List.length_drop]
    omega
  unfold aeadDecrypt
  rw [if_pos hd]

/-- Claim C10 witness at a concrete 12 byte envelope of zero bytes. -/
theorem claim10_witness :
    QKDEncryption.decrypt { session_id := 0, key_material := [] }
        (List.replicate 12 0) = Except.error QKDError.DecryptionFailed :=
  claim10_short_body { session_id := 0, key_material := [] } (List.replicate 12 0)
    (by decide) (by decide)
